import Mathlib

/-!
Verification of the directive block engine of `pymdownx/directives/__init__.py`
(with the directive-kind plug-ins of `pymdownx/directives/tabs.py`,
`pymdownx/directives/details.py` and the selector-based block of
`pymdownx/blocks/html.py`).

Text is modelled as `List Char`; a multi-line string is the `'\n'`-join of its
lines, and `splitLines` / `joinLines` translate between the two views (they are
mutually inverse, proved below).  Python's `re` patterns of the source are
translated into character-level line matchers:

* `RE_END = (?m)(?:^|\n)[ ]{0,3}(:{3,})[ ]*(?:\n|$)` — a match always spans one
  whole line (0-3 spaces, a run of 3 or more colons, trailing spaces), so it is
  modelled by `endFenceRun`, which returns the colon-run length of an
  end-fence line.
* `RE_START = (?:^|\n)[ ]{0,3}(:{3,})[ ]*\{[ ]*(\w+)[ ]*\}(.*?)(?:\n|$)` —
  likewise per-line, modelled by `startFence`.
* `RE_YAML_START` / `RE_YAML_END` / `RE_YAML_LINE` — modelled by
  `yamlDelimEnd` and `yamlLineEnd`.

The external YAML library (`yaml.load` wrapped by `yaml_load`) is not part of
the repository; it is modelled as a parameter `yamlF : List Char → Except Unit
YamlValue` (an exception becomes `Except.error`), and `get_frontmatter` is the
faithful wrapper from the source: any exception or non-dict result degrades to
`none`.
-/

set_option maxHeartbeats 1000000

namespace Directives

abbrev Line := List Char
abbrev Block := List Char

/-- Split a string (as a character list) at `'\n'`, exactly like Python's
`str.split('\n')`: the result is always non-empty, and an empty string yields
`[[]]`. -/
def splitLines : List Char → List (List Char)
  | [] => [[]]
  | c :: cs =>
    match splitLines cs with
    | [] => [[]]
    | l :: ls => if c = '\n' then [] :: l :: ls else (c :: l) :: ls

/-- Python's `'\n'.join`. -/
def joinLines (ls : List (List Char)) : List Char := List.intercalate ['\n'] ls

theorem splitLines_ne_nil (s : List Char) : splitLines s ≠ [] := by
  cases s with
  | nil => simp [splitLines]
  | cons c cs =>
    simp only [splitLines]
    cases h : splitLines cs with
    | nil => simp
    | cons l ls => by_cases hc : c = '\n' <;> simp [hc]

theorem joinLines_cons_cons (c : Char) (l : List Char) (ls : List (List Char)) :
    joinLines ((c :: l) :: ls) = c :: joinLines (l :: ls) := by
  cases ls <;> simp [joinLines, List.intercalate]

theorem joinLines_nil_cons (l : List Char) (ls : List (List Char)) :
    joinLines ([] :: l :: ls) = '\n' :: joinLines (l :: ls) := by
  simp [joinLines, List.intercalate]

theorem joinLines_splitLines (s : List Char) : joinLines (splitLines s) = s := by
  induction s with
  | nil => simp [splitLines, joinLines, List.intercalate]
  | cons c cs ih =>
    simp only [splitLines]
    cases h : splitLines cs with
    | nil => exact absurd h (splitLines_ne_nil cs)
    | cons l ls =>
      rw [h] at ih
      by_cases hc : c = '\n'
      · subst hc
        simp [joinLines_nil_cons, ih]
      · simp [if_neg hc, joinLines_cons_cons, ih]

/-- The end-fence line matcher: `RE_END`'s per-line content
`[ ]{0,3}(:{3,})[ ]*` anchored to the whole line.  Returns the length of the
colon run (the regex group `1`) when the line is an end fence. -/
def endFenceRun (l : Line) : Option Nat :=
  let sp := l.takeWhile (· = ' ')
  let r1 := l.dropWhile (· = ' ')
  if sp.length ≤ 3 then
    let col := r1.takeWhile (· = ':')
    let r2 := r1.dropWhile (· = ':')
    if 3 ≤ col.length && r2.all (· = ' ') then some col.length else none
  else none

/-- Does line `l` close a directive of nesting length `k`?  This is the filter
`len(match.group(1)) >= length` applied to `RE_END` matches in `split_end`:
the line must be an end fence and its colon run must be at least `k`. -/
def qualLine (k : Nat) (l : Line) : Bool :=
  match endFenceRun l with
  | some n => k ≤ n
  | none => false

/-- Index of the first line that is an end fence of run length `≥ k`
(= the first `RE_END` match kept by the filter in `split_end`). -/
def findEndLine (lines : List Line) (k : Nat) : Option Nat :=
  match lines with
  | [] => none
  | l :: ls =>
    if qualLine k l then some 0
    else (findEndLine ls k).map (· + 1)

/-- `DirectiveProcessor.split_end`: scan the blocks for the first end fence of
sufficient length; return `(good, blocks_after, end_found)` where `good` is
the content kept for the directive, `blocks_after` is the new contents of the
mutated `blocks` list, and `end_found` is the returned `end` flag. -/
def split_end (blocks : List Block) (k : Nat) : List Block × List Block × Bool :=
  match blocks with
  | [] => ([], [], false)
  | b :: bs =>
    let lines := splitLines b
    match findEndLine lines k with
    | some i =>
      let before := joinLines (lines.take i)
      let after := joinLines (lines.drop (i + 1))
      ((if before = [] then [] else [before]),
       (if after = [] then [] else [after]) ++ bs, true)
    | none =>
      let r := split_end bs k
      (b :: r.1, r.2.1, r.2.2)

/-- Position (block index, line index) of the first end-fence line of run
length `≥ k` among the supplied blocks. -/
def firstQualEnd (blocks : List Block) (k : Nat) : Option (Nat × Nat) :=
  match blocks with
  | [] => none
  | b :: bs =>
    match findEndLine (splitLines b) k with
    | some i => some (0, i)
    | none => (firstQualEnd bs k).map (fun p => (p.1 + 1, p.2))

/-- Spec-side description of `split_end`, written from the specification's
words: the directive "is closed exactly by the first subsequent end-fence line
of length ≥ k"; everything before that line is kept, the line itself is
dropped, and everything after it is handed back as the remaining blocks.  To
be compared with the source translation `split_end`. -/
def splitEndSpec (blocks : List Block) (k : Nat) : List Block × List Block × Bool :=
  match firstQualEnd blocks k with
  | none => (blocks, [], false)
  | some (e, i) =>
    let lines := splitLines (blocks.getD e [])
    let before := joinLines (lines.take i)
    let after := joinLines (lines.drop (i + 1))
    (blocks.take e ++ (if before = [] then [] else [before]),
     (if after = [] then [] else [after]) ++ blocks.drop (e + 1), true)

theorem split_end_eq_splitEndSpec (blocks : List Block) (k : Nat) :
    split_end blocks k = splitEndSpec blocks k := by
  induction blocks with
  | nil => rfl
  | cons b bs ih =>
    simp only [split_end, splitEndSpec, firstQualEnd]
    cases hf : findEndLine (splitLines b) k with
    | some i => simp
    | none =>
      simp only [ih, splitEndSpec]
      cases hq : firstQualEnd bs k with
      | none => simp
      | some p =>
        obtain ⟨e, i⟩ := p
        simp

theorem findEndLine_qual (lines : List Line) (k : Nat) :
    ∀ i, findEndLine lines k = some i →
      i < lines.length ∧ qualLine k (lines.getD i []) = true ∧
      ∀ j, j < i → qualLine k (lines.getD j []) = false := by
  induction lines with
  | nil => intro i h; simp [findEndLine] at h
  | cons l ls ih =>
    intro i h
    rw [findEndLine] at h
    cases hq : qualLine k l with
    | true =>
      rw [hq] at h
      simp only [if_true] at h
      cases h
      refine ⟨by simp, by simpa using hq, ?_⟩
      intro j hj; omega
    | false =>
      rw [hq] at h
      simp only [Bool.false_eq_true, if_false, Option.map_eq_some'] at h
      obtain ⟨i', hi', rfl⟩ := h
      obtain ⟨h1, h2, h3⟩ := ih i' hi'
      refine ⟨by simpa using h1, by simpa using h2, ?_⟩
      intro j hj
      cases j with
      | zero => simpa using hq
      | succ j' => simpa using h3 j' (by omega)

theorem findEndLine_none (lines : List Line) (k : Nat) :
    findEndLine lines k = none →
      ∀ j, qualLine k (lines.getD j []) = false := by
  induction lines with
  | nil =>
    intro _ j
    simp [qualLine, endFenceRun]
  | cons l ls ih =>
    intro h j
    rw [findEndLine] at h
    cases hq : qualLine k l with
    | true => rw [hq] at h; simp at h
    | false =>
      rw [hq] at h
      simp only [Bool.false_eq_true, if_false, Option.map_eq_none'] at h
      cases j with
      | zero => simpa using hq
      | succ j' => simpa using ih h j'

/-- Out-of-range block indices give `[]`, whose line split has no end fence. -/
theorem qualLine_nil (k : Nat) : ∀ j, qualLine k ((splitLines ([] : Block)).getD j []) = false := by
  intro j
  cases j <;> simp [splitLines, qualLine, endFenceRun]

theorem firstQualEnd_qual (blocks : List Block) (k : Nat) :
    ∀ e i, firstQualEnd blocks k = some (e, i) →
      e < blocks.length ∧
      qualLine k ((splitLines (blocks.getD e [])).getD i []) = true ∧
      ∀ e' i', (e' < e ∨ (e' = e ∧ i' < i)) →
        qualLine k ((splitLines (blocks.getD e' [])).getD i' []) = false := by
  induction blocks with
  | nil => intro e i h; simp [firstQualEnd] at h
  | cons b bs ih =>
    intro e i h
    simp only [firstQualEnd] at h
    cases hf : findEndLine (splitLines b) k with
    | some j =>
      rw [hf] at h
      simp only [Option.some.injEq, Prod.mk.injEq] at h
      obtain ⟨rfl, rfl⟩ := h
      obtain ⟨h1, h2, h3⟩ := findEndLine_qual (splitLines b) k j hf
      refine ⟨by simp, by simpa using h2, ?_⟩
      intro e' i' he'
      rcases he' with he' | ⟨rfl, hi'⟩
      · omega
      · simpa using h3 i' hi'
    | none =>
      rw [hf] at h
      simp only [Option.map_eq_some'] at h
      obtain ⟨⟨e0, i0⟩, hq, hp⟩ := h
      simp only [Prod.mk.injEq] at hp
      obtain ⟨rfl, rfl⟩ := hp
      obtain ⟨h1, h2, h3⟩ := ih e0 i0 hq
      refine ⟨by simpa using h1, by simpa using h2, ?_⟩
      intro e' i' he'
      cases e' with
      | zero => simpa using findEndLine_none (splitLines b) k hf i'
      | succ e'' =>
        have : e'' < e0 ∨ (e'' = e0 ∧ i' < i0) := by omega
        simpa using h3 e'' i' this

theorem firstQualEnd_none (blocks : List Block) (k : Nat) :
    firstQualEnd blocks k = none →
      ∀ e i, qualLine k ((splitLines (blocks.getD e [])).getD i []) = false := by
  induction blocks with
  | nil =>
    intro _ e i
    cases e <;> exact qualLine_nil k i
  | cons b bs ih =>
    intro h e i
    simp only [firstQualEnd] at h
    cases hf : findEndLine (splitLines b) k with
    | some j => simp [hf] at h
    | none =>
      rw [hf] at h
      simp only [Option.map_eq_none'] at h
      cases e with
      | zero => simpa using findEndLine_none (splitLines b) k hf i
      | succ e' => simpa using ih h e' i

/-- C1: `split_end` called with length `k` selects the first end match in the
supplied blocks whose colon-run length is `≥ k` and no earlier one; an
end-fence line of run length `< k` never closes the directive (it fails
`qualLine` and is skipped by the selection).  Stated as: the source
translation `split_end` equals the spec-side `splitEndSpec`, and the selected
position `firstQualEnd` is exactly the first qualifying end-fence line (no
earlier line, in block-then-line order, qualifies), while in the no-end case
no line qualifies at all. -/
theorem claim1_split_end_first_qualifying (blocks : List Block) (k : Nat) :
    split_end blocks k = splitEndSpec blocks k ∧
    (∀ e i, firstQualEnd blocks k = some (e, i) →
      qualLine k ((splitLines (blocks.getD e [])).getD i []) = true ∧
      ∀ e' i', (e' < e ∨ (e' = e ∧ i' < i)) →
        qualLine k ((splitLines (blocks.getD e' [])).getD i' []) = false) ∧
    (firstQualEnd blocks k = none →
      ∀ e i, qualLine k ((splitLines (blocks.getD e [])).getD i []) = false) := by
  refine ⟨split_end_eq_splitEndSpec blocks k, ?_, firstQualEnd_none blocks k⟩
  intro e i h
  obtain ⟨_, h2, h3⟩ := firstQualEnd_qual blocks k e i h
  exact ⟨h2, h3⟩

/-- C10: `split_end` partitions its input without losing content.  When no end
fence of run length `≥ k` occurs, the good list is the original blocks, the
`end` flag is false and the mutated blocks list is empty.  When one occurs at
position `(e, i)`, the good list is the blocks before it plus the (non-empty)
text before the fence line, the blocks list becomes the (non-empty) text after
the fence line plus all later blocks in order, the flag is true, and block `e`
is exactly the kept text around the single removed fence line. -/
theorem claim10_split_end_partitions (blocks : List Block) (k : Nat) :
    (firstQualEnd blocks k = none →
      split_end blocks k = (blocks, [], false)) ∧
    (∀ e i, firstQualEnd blocks k = some (e, i) →
      ∃ b, blocks.getD e [] = b ∧ e < blocks.length ∧
        qualLine k ((splitLines b).getD i []) = true ∧
        b = joinLines ((splitLines b).take i ++
              ((splitLines b).getD i []) :: (splitLines b).drop (i + 1)) ∧
        split_end blocks k =
          (blocks.take e ++
             (if joinLines ((splitLines b).take i) = [] then []
              else [joinLines ((splitLines b).take i)]),
           (if joinLines ((splitLines b).drop (i + 1)) = [] then []
            else [joinLines ((splitLines b).drop (i + 1))]) ++ blocks.drop (e + 1),
           true)) := by
  constructor
  · intro h
    rw [split_end_eq_splitEndSpec, splitEndSpec, h]
  · intro e i h
    obtain ⟨he, hq, _⟩ := firstQualEnd_qual blocks k e i h
    refine ⟨blocks.getD e [], rfl, he, hq, ?_, ?_⟩
    · set lines := splitLines (blocks.getD e []) with hl
      have hi : i < lines.length := by
        by_contra hcon
        push_neg at hcon
        rw [List.getD_eq_default _ _ (by omega)] at hq
        simp [qualLine, endFenceRun] at hq
      calc blocks.getD e [] = joinLines lines := (joinLines_splitLines _).symm
        _ = joinLines (lines.take i ++ lines.getD i [] :: lines.drop (i + 1)) := by
            congr 1
            rw [List.getD_eq_getElem _ _ hi]
            conv_lhs => rw [← List.take_append_drop i lines]
            congr 1
            exact (List.drop_eq_getElem_cons hi).symm ▸ rfl
    · rw [split_end_eq_splitEndSpec, splitEndSpec, h]

theorem claim1_witness :
    qualLine 4 ((splitLines (["a\n:::\n:::::\nb".toList].getD 0 [])).getD 2 []) = true ∧
    qualLine 4 ((splitLines (["a\n:::\n:::::\nb".toList].getD 0 [])).getD 1 []) = false :=
  ⟨((claim1_split_end_first_qualifying ["a\n:::\n:::::\nb".toList] 4).2.1 0 2 (by decide)).1,
   ((claim1_split_end_first_qualifying ["a\n:::\n:::::\nb".toList] 4).2.1 0 2 (by decide)).2
     0 1 (Or.inr ⟨rfl, by decide⟩)⟩

theorem claim10_witness :
    split_end ["x\n:::\ny".toList] 3 = (["x".toList], ["y".toList], true) := by
  obtain ⟨b, hb, h2, h3, h4, h5⟩ :=
    (claim10_split_end_partitions ["x\n:::\ny".toList] 3).2 0 1 (by decide)
  subst hb
  rw [h5]
  decide

/-! ## The configuration-header parser: `get_frontmatter` and `split_header` -/

/-- The value produced by the external YAML library: either a flat mapping
(the only shape the engine accepts) or anything else. -/
inductive YamlValue where
  | dict (entries : List (List Char × List Char)) : YamlValue
  | other : YamlValue

/-- `get_frontmatter`: run the (external, parameterised) YAML loader; an
exception (`Except.error`) or a non-dict result degrades to `none`.  This is
the `try/except` plus `isinstance(frontmatter, dict)` check of the source;
the Lean function is total, so no exception can escape. -/
def get_frontmatter (yamlF : List Char → Except Unit YamlValue) (s : List Char) :
    Option (List (List Char × List Char)) :=
  match yamlF s with
  | Except.ok (YamlValue.dict d) => some d
  | _ => none

/-- Python's `str.strip('\n')`. -/
def stripNl (s : List Char) : List Char :=
  ((s.dropWhile (· = '\n')).reverse.dropWhile (· = '\n')).reverse

/-- Anchored match of `RE_YAML_START` / `RE_YAML_END`'s line content
`[ ]{0,3}(-{3})[ ]*(?:\n|$)` at the start of `s`; returns the match end
offset (`m.end(0)`), past the consumed newline when one is present. -/
def yamlDelimEnd (s : List Char) : Option Nat :=
  let sp := s.takeWhile (· = ' ')
  let r1 := s.dropWhile (· = ' ')
  if sp.length ≤ 3 then
    match r1 with
    | '-' :: '-' :: '-' :: r2 =>
      let sp2 := r2.takeWhile (· = ' ')
      let r3 := r2.dropWhile (· = ' ')
      match r3 with
      | [] => some (sp.length + 3 + sp2.length)
      | '\n' :: _ => some (sp.length + 3 + sp2.length + 1)
      | _ => none
    | _ => none
  else none

/-- All positions in `s` where the multiline `^` anchor can match: position 0
and every position immediately after a `'\n'`. -/
def lineStartsAux : List Char → Nat → List Nat
  | [], _ => []
  | c :: cs, p => if c = '\n' then (p + 1) :: lineStartsAux cs (p + 1) else lineStartsAux cs (p + 1)

def lineStarts (s : List Char) : List Nat := 0 :: lineStartsAux s 0

/-- `RE_YAML_END.search(block, begin)`: the leftmost match of the `---`
delimiter at a line start at offset `≥ b`, returned as `(m.start, m.end)`. -/
def findYamlEnd (s : List Char) (b : Nat) : Option (Nat × Nat) :=
  ((lineStarts s).filter (fun p => decide (b ≤ p))).findSome?
    (fun p => (yamlDelimEnd (s.drop p)).map (fun len => (p, p + len)))

/-- Anchored match of `RE_YAML_LINE = ^[ ]{0,3}:(?!:{2,})`; returns `m.end(0)`
(the offset just past the colon) when the line starts a shorthand header
line. -/
def yamlLineEnd (l : Line) : Option Nat :=
  let sp := l.takeWhile (· = ' ')
  let r1 := l.dropWhile (· = ' ')
  if sp.length ≤ 3 then
    match r1 with
    | ':' :: ':' :: ':' :: _ => none
    | ':' :: _ => some (sp.length + 1)
    | _ => none
  else none

/-- The shorthand-form loop of `split_header`, translated exactly as written:
matching lines are appended to `good`; on the first non-matching line with
empty `good` the loop breaks; on a non-matching line with non-empty `good`
the tail of the lines (and a copy of `blocks`) is appended to `bad` — and,
since the source has no `break` there, the loop keeps scanning. -/
def shorthandScan : List Line → List Block → List (List Char) → List Block →
    List (List Char) × List Block
  | [], _, good, bad => (good, bad)
  | l :: ls, blocks, good, bad =>
    match yamlLineEnd l with
    | some e => shorthandScan ls blocks (good ++ [l.drop e]) bad
    | none =>
      if good = [] then (good, bad)
      else
        shorthandScan ls blocks good
          (bad ++ (if joinLines (l :: ls) = [] then [] else [joinLines (l :: ls)]) ++ blocks)

/-- The header-candidate extraction of `split_header`: the `good` (header
body) and `bad` (leftover) lists built by the YAML-block branch (when
`RE_YAML_START` matches the stripped block) or the shorthand branch. -/
def header_candidate (block : Block) (blocks : List Block) :
    List (List Char) × List Block :=
  match yamlDelimEnd (stripNl block) with
  | some b =>
    match findYamlEnd block b with
    | some (ms, me) =>
      ([(block.drop b).take (ms - b)],
       (if block.drop me = [] then [] else [block.drop me]) ++ blocks)
    | none => ([], [])
  | none => shorthandScan (splitLines block) blocks [] []

/-- `DirectiveProcessor.split_header`: returns the parsed options together
with the new contents of the mutated `blocks` list.  An empty block returns
no options and leaves `blocks` alone; a found and successfully parsed header
replaces `blocks` by `bad`; otherwise the original block is reinserted at the
front. -/
def split_header (yamlF : List Char → Except Unit YamlValue)
    (block : Block) (blocks : List Block) :
    List (List Char × List Char) × List Block :=
  if block = [] then ([], blocks)
  else
    let gb := header_candidate block blocks
    if gb.1 = [] then ([], block :: blocks)
    else
      match get_frontmatter yamlF (joinLines gb.1) with
      | some fm => (fm, gb.2)
      | none => ([], block :: blocks)

/-- C3: a header whose content does not parse as a flat mapping (the loader
throws, or returns a non-dict) never raises — `split_header` is total — and
degrades to "no header": it returns an empty options mapping and reinserts
the original block content unchanged at the front of the remaining blocks. -/
theorem claim3_malformed_header_degrades
    (yamlF : List Char → Except Unit YamlValue) (block : Block) (blocks : List Block) :
    block ≠ [] →
    get_frontmatter yamlF (joinLines (header_candidate block blocks).1) = none →
    split_header yamlF block blocks = ([], block :: blocks) ∧
    (∀ s, yamlF s = Except.error () → get_frontmatter yamlF s = none) ∧
    (∀ s, yamlF s = Except.ok YamlValue.other → get_frontmatter yamlF s = none) := by
  intro hb hfm
  refine ⟨?_, ?_, ?_⟩
  · rw [split_header, if_neg hb]
    by_cases hg : (header_candidate block blocks).1 = []
    · simp [hg]
    · simp only [hg, if_false, hfm]
  · intro s hs; simp [get_frontmatter, hs]
  · intro s hs; simp [get_frontmatter, hs]

theorem claim3_witness :
    split_header (fun _ => Except.error ()) ":a".toList [] = ([], [":a".toList]) :=
  (claim3_malformed_header_degrades (fun _ => Except.error ()) ":a".toList []
    (by decide) rfl).1

/-- A concrete stand-in for the external YAML loader used to exercise the
shorthand branch: it parses exactly the two-line mapping `a: 1\nb: 2` (as the
real loader would) and fails on everything else. -/
def yamlTwoKeys : List Char → Except Unit YamlValue := fun s =>
  if s = "a: 1\nb: 2".toList then
    Except.ok (YamlValue.dict [("a".toList, "1".toList), ("b".toList, "2".toList)])
  else Except.error ()

/-- C7 fails on the code: the shorthand loop of `split_header` has no `break`
after a non-matching line, so for the block `":a: 1\nx\n:b: 2\ny"` the later
colon-prefixed line `":b: 2"` — which lies past the first non-matching line
`"x"` — still contributes to the header (the parsed options contain the key
`b`), and the tail is appended to the leftover blocks once per later
non-matching line, duplicating `"y"`.  The specified behaviour (header =
maximal matching prefix, first non-matching line and everything after left
untouched) is what the surrounding code clearly intends, so this is recorded
as a bug in the code. -/
theorem claim7_shorthand_scan_overruns :
    split_header yamlTwoKeys ":a: 1\nx\n:b: 2\ny".toList [] =
      ([("a".toList, "1".toList), ("b".toList, "2".toList)],
       ["x\n:b: 2\ny".toList, "y".toList]) := by
  decide

/-! ## The tree model, the open-directive stack and the continuation resolver

`etree` elements are modelled as finitely-branching trees carrying a node id;
the id stands for Python object identity (`entry.parent is temp`), so distinct
elements carry distinct ids.  Python's deprecated `Element.__bool__` — used by
`get_parent`'s `while temp:` and `if self.cached_parent:` — is
`len(children) != 0`, modelled by `truthy`.  `BlockProcessor.lastChild` is
`parent[-1] if len(parent) else None`.

The chain walk of `get_parent` is implemented with an explicit fuel argument
(`esize`, the node count, strictly decreases along last-child links) so that
every definition evaluates by `rfl`; `searchChainFuel_eq_find` shows the walk
is the first-match search along the truthy last-child chain. -/

inductive Element where
  | node (eid : Nat) (children : List Element) : Element

def Element.eid : Element → Nat
  | .node i _ => i

def Element.children : Element → List Element
  | .node _ cs => cs

mutual
def esize : Element → Nat
  | .node _ cs => 1 + esizeL cs
def esizeL : List Element → Nat
  | [] => 0
  | c :: cs => esize c + esizeL cs
end

/-- `parent[-1]`: the last element of a non-empty children list. -/
def lastTree : Element → List Element → Element
  | d, [] => d
  | _, x :: xs => lastTree x xs

/-- Python element truthiness: `len(element) != 0`. -/
def truthy (t : Element) : Bool := !t.children.isEmpty

/-- `BlockProcessor.lastChild`: `parent[-1] if len(parent) else None`. -/
def lastChild (t : Element) : Option Element :=
  match t.children with
  | [] => none
  | c :: cs => some (lastTree c cs)

theorem lastTree_mem (c : Element) (cs : List Element) : lastTree c cs ∈ c :: cs := by
  induction cs generalizing c with
  | nil => simp [lastTree]
  | cons x xs ih =>
    simp only [lastTree]
    exact List.mem_cons.mpr (Or.inr (ih x))

theorem esize_le_of_mem {c : Element} {cs : List Element} (h : c ∈ cs) :
    esize c ≤ esizeL cs := by
  induction cs with
  | nil => simp at h
  | cons x xs ih =>
    rcases List.mem_cons.mp h with rfl | h'
    · simp only [esizeL]; omega
    · have := ih h'
      simp only [esizeL]
      omega

theorem esize_lastTree_lt (i : Nat) (c : Element) (cs : List Element) :
    esize (lastTree c cs) < esize (Element.node i (c :: cs)) := by
  have h := esize_le_of_mem (lastTree_mem c cs)
  simp only [esize, esizeL] at *
  omega

theorem esize_pos (t : Element) : 1 ≤ esize t := by
  cases t with
  | node i cs => simp [esize]

/-- A directive instance as far as the stack machinery observes it: its name
and its nesting length (the minimum end-fence length that closes it).
Modelled from the spec: the `Directive` base class (`directive.py`) is not in
the sources; per its contract, `length` is "the minimum end-fence length
required to close this occurrence (normally the opening fence's own
length)", and the `DirectiveProcessor.test` call site passes the opening
fence's length to the constructor. -/
structure DirectiveV where
  name : List Char
  length : Nat
deriving DecidableEq, Repr

/-- `DirectiveEntry`: one open directive on the stack.  The `el` field (the
directive's created root element) is consumed only by the content dispatcher
`parse_blocks`, which never touches the stack, the caches or the flags
modelled here, so it is not carried. -/
structure Entry where
  directive : DirectiveV
  parentId : Nat
  hungry : Bool
deriving DecidableEq, Repr

/-- Does some stack entry satisfy `entry.hungry and entry.parent is temp`
for the node with id `eid`? -/
def hungryAt (stack : List Entry) (eid : Nat) : Bool :=
  stack.any (fun en => en.hungry && en.parentId == eid)

/-- The `while temp:` loop of `get_parent`, with explicit fuel: while the
current node is truthy (has children), check the stack at it and otherwise
step to its last child. -/
def searchChainFuel (stack : List Entry) : Nat → Element → Option Element
  | 0, _ => none
  | n + 1, .node i cs =>
    match cs with
    | [] => none
    | c :: cs' =>
      if hungryAt stack i then some (.node i (c :: cs'))
      else searchChainFuel stack n (lastTree c cs')

/-- The nodes the loop visits: the maximal last-child chain of truthy nodes
starting at the given node. -/
def chainTFuel : Nat → Element → List Element
  | 0, _ => []
  | n + 1, .node i cs =>
    match cs with
    | [] => []
    | c :: cs' => .node i (c :: cs') :: chainTFuel n (lastTree c cs')

def searchChain (stack : List Entry) (t : Element) : Option Element :=
  searchChainFuel stack (esize t) t

def chainT (t : Element) : List Element := chainTFuel (esize t) t

theorem chainTFuel_congr : ∀ n m (t : Element), esize t ≤ n → esize t ≤ m →
    chainTFuel n t = chainTFuel m t := by
  intro n
  induction n with
  | zero =>
    intro m t hn
    have := esize_pos t
    omega
  | succ n ih =>
    intro m t hn hm
    cases t with
    | node i cs =>
      cases m with
      | zero => have := esize_pos (Element.node i cs); omega
      | succ m =>
        cases cs with
        | nil => simp [chainTFuel]
        | cons c cs' =>
          simp only [chainTFuel]
          have hlt := esize_lastTree_lt i c cs'
          congr 1
          exact ih m (lastTree c cs') (by omega) (by omega)

theorem chainT_eq_fuel (n : Nat) (t : Element) (h : esize t ≤ n) :
    chainT t = chainTFuel n t :=
  chainTFuel_congr (esize t) n t le_rfl h

theorem searchChainFuel_eq_find : ∀ n (stack : List Entry) (t : Element), esize t ≤ n →
    searchChainFuel stack n t = (chainTFuel n t).find? (fun u => hungryAt stack u.eid) := by
  intro n
  induction n with
  | zero =>
    intro stack t hn
    have := esize_pos t
    omega
  | succ n ih =>
    intro stack t hn
    cases t with
    | node i cs =>
      cases cs with
      | nil => simp [searchChainFuel, chainTFuel]
      | cons c cs' =>
        simp only [searchChainFuel, chainTFuel]
        have hlt := esize_lastTree_lt i c cs'
        cases hq : hungryAt stack i with
        | true => simp [List.find?, Element.eid, hq]
        | false =>
          rw [if_neg (by simp [hq])]
          rw [List.find?]
          simp only [Element.eid, hq]
          exact ih stack (lastTree c cs') (by omega)

theorem searchChain_eq_find (stack : List Entry) (t : Element) :
    searchChain stack t = (chainT t).find? (fun u => hungryAt stack u.eid) :=
  searchChainFuel_eq_find (esize t) stack t le_rfl

theorem chainT_children_ne_nil : ∀ n (t : Element), ∀ u ∈ chainTFuel n t,
    u.children ≠ [] := by
  intro n
  induction n with
  | zero => intro t u hu; simp [chainTFuel] at hu
  | succ n ih =>
    intro t u hu
    cases t with
    | node i cs =>
      cases cs with
      | nil => simp [chainTFuel] at hu
      | cons c cs' =>
        simp only [chainTFuel] at hu
        rcases List.mem_cons.mp hu with rfl | hu'
        · simp [Element.children]
        · exact ih (lastTree c cs') u hu'

theorem chainT_head (i : Nat) (c : Element) (cs : List Element) :
    chainT (Element.node i (c :: cs)) =
      Element.node i (c :: cs) :: chainT (lastTree c cs) := by
  have h1 : esize (Element.node i (c :: cs)) = esizeL (c :: cs) + 1 := by
    simp only [esize]; omega
  rw [chainT, h1]
  simp only [chainTFuel]
  congr 1
  exact (chainT_eq_fuel (esizeL (c :: cs)) (lastTree c cs)
    (esize_le_of_mem (lastTree_mem c cs))).symm

/-! ## The engine state and `get_parent` -/

/-- The mutable fields of `DirectiveProcessor` that the stack machinery
reads and writes: the open-directive stack, the `working` slot, the
per-document tracker map, and the two single-call caches. -/
structure PState where
  stack : List Entry
  working : Option Entry
  trackers : List (List Char × List (List Char × Nat))
  cachedParent : Option Element
  cachedDirective : Option (DirectiveV × List Char)

/-- `DirectiveProcessor.get_parent`.  `if self.cached_parent:` is element
truthiness, so a cached node is consumed (and the cache cleared) only when it
has children; otherwise the walk runs with the stale cache left in place.
The walk caches a found node before returning it. -/
def get_parent (st : PState) (parent : Element) : Option Element × PState :=
  match st.cachedParent with
  | some cp =>
    if truthy cp then (some cp, { st with cachedParent := none })
    else
      match searchChain st.stack parent with
      | some t => (some t, { st with cachedParent := some t })
      | none => (none, st)
  | none =>
    match searchChain st.stack parent with
    | some t => (some t, { st with cachedParent := some t })
    | none => (none, st)

/-- C2 as stated is false on the code: `while temp:` tests Python element
truthiness, which is `len(children) != 0`, so a node without children —
here the queried node `P = node 0 []` itself — is never checked against the
stack.  With an empty cache and a stack whose single entry is hungry with
exactly `P` recorded as its parent (`hungryAt … P.eid = true`), `get_parent`
returns `None` instead of the match the claim requires. -/
theorem claim2_counterexample :
    (get_parent
        { stack := [{ directive := { name := ['d'], length := 3 }, parentId := 0, hungry := true }],
          working := none, trackers := [], cachedParent := none, cachedDirective := none }
        (Element.node 0 [])).1 = none ∧
    (Element.node 0 []).children = [] ∧
    hungryAt [{ directive := { name := ['d'], length := 3 }, parentId := 0, hungry := true }]
      (Element.node 0 []).eid = true :=
  ⟨rfl, rfl, rfl⟩

/-- C2 amended: with an empty cache, `get_parent` walks the last-child chain
of the given node but visits only nodes that have at least one child (Python
element truthiness) — a childless node, including `P` itself, is never
checked and stops the walk.  At each visited node it checks whether some
stack entry is hungry with that node recorded as its parent; the first match
is returned and memoized in `cached_parent`, and `none` is returned (with no
memoization) when no visited node matches.  A later call that consumes the
memoized value returns it and clears the cache. -/
theorem claim2_get_parent_walks_truthy_chain (st : PState) (P c : Element) :
    (st.cachedParent = none →
      get_parent st P =
        match (chainT P).find? (fun u => hungryAt st.stack u.eid) with
        | some t => (some t, { st with cachedParent := some t })
        | none => (none, st)) ∧
    (∀ u ∈ chainT P, u.children ≠ []) ∧
    (P.children = [] → chainT P = []) ∧
    (∀ i ch cs, P = Element.node i (ch :: cs) →
      chainT P = P :: chainT (lastTree ch cs)) ∧
    (st.cachedParent = some c → truthy c = true →
      get_parent st P = (some c, { st with cachedParent := none })) := by
  refine ⟨?_, chainT_children_ne_nil (esize P) P, ?_, ?_, ?_⟩
  · intro h
    rw [get_parent, h, searchChain_eq_find]
  · intro h
    cases P with
    | node i cs =>
      cases cs with
      | nil => rfl
      | cons c' cs' => exact absurd h (by simp [Element.children])
  · intro i ch cs hP
    subst hP
    exact chainT_head i ch cs
  · intro h ht
    rw [get_parent, h]
    simp [ht]

theorem claim2_witness :
    get_parent
        { stack := [{ directive := { name := ['d'], length := 3 }, parentId := 1, hungry := true }],
          working := none, trackers := [], cachedParent := none, cachedDirective := none }
        (Element.node 1 [Element.node 2 []]) =
      (some (Element.node 1 [Element.node 2 []]),
       { stack := [{ directive := { name := ['d'], length := 3 }, parentId := 1, hungry := true }],
         working := none, trackers := [],
         cachedParent := some (Element.node 1 [Element.node 2 []]), cachedDirective := none }) ∧
    get_parent
        { stack := [], working := none, trackers := [],
          cachedParent := some (Element.node 1 [Element.node 2 []]), cachedDirective := none }
        (Element.node 9 []) =
      (some (Element.node 1 [Element.node 2 []]),
       { stack := [], working := none, trackers := [], cachedParent := none,
         cachedDirective := none }) := by
  constructor
  · have h := (claim2_get_parent_walks_truthy_chain
      { stack := [{ directive := { name := ['d'], length := 3 }, parentId := 1, hungry := true }],
        working := none, trackers := [], cachedParent := none, cachedDirective := none }
      (Element.node 1 [Element.node 2 []]) (Element.node 0 [])).1 rfl
    rw [h]
    rfl
  · exact (claim2_get_parent_walks_truthy_chain
      { stack := [], working := none, trackers := [],
        cachedParent := some (Element.node 1 [Element.node 2 []]), cachedDirective := none }
      (Element.node 9 []) (Element.node 1 [Element.node 2 []])).2.2.2.2 rfl rfl

/-! ## `test` and `run` -/

instance : Inhabited Entry :=
  ⟨{ directive := { name := [], length := 0 }, parentId := 0, hungry := false }⟩

/-- ASCII `\w` (the registered directive names are ASCII words). -/
def isWordChar (c : Char) : Bool :=
  ('a' ≤ c && c ≤ 'z') || ('A' ≤ c && c ≤ 'Z') || ('0' ≤ c && c ≤ '9') || c = '_'

/-- Per-line match of `RE_START`: 0-3 spaces, 3+ colons, optional spaces, a
braced word, and the rest of the line as the argument string.  Returns
(fence length, raw name, argument string). -/
def startFence (l : Line) : Option (Nat × List Char × List Char) :=
  let sp := l.takeWhile (· = ' ')
  let r1 := l.dropWhile (· = ' ')
  if sp.length ≤ 3 then
    let col := r1.takeWhile (· = ':')
    let r2 := r1.dropWhile (· = ':')
    if 3 ≤ col.length then
      let r3 := r2.dropWhile (· = ' ')
      match r3 with
      | '{' :: r4 =>
        let r5 := r4.dropWhile (· = ' ')
        let nm := r5.takeWhile isWordChar
        let r6 := r5.dropWhile isWordChar
        if nm ≠ [] then
          let r7 := r6.dropWhile (· = ' ')
          match r7 with
          | '}' :: rest => some (col.length, nm, rest)
          | _ => none
        else none
      | _ => none
    else none
  else none

/-- `RE_START.search(block)`: the first line that is a start fence, with its
line index. -/
def findStartLine : List Line → Option (Nat × Nat × List Char × List Char)
  | [] => none
  | l :: ls =>
    match startFence l with
    | some (len, nm, args) => some (0, len, nm, args)
    | none => (findStartLine ls).map (fun p => (p.1 + 1, p.2))

/-- A registered directive kind, as the engine observes it.
Modelled from the spec: the `Directive` base class (`directive.py`) is not
under the sources; per the directive-kind contract it exposes
`validate/parse_config(argument_string, header_options) -> bool` (covering
arity checks, unknown options and option-converter failures, and argument
validators such as the HTML block's selector parser) and a constructor hook
(`on_init`) that may update the per-kind tracker, as `Tabs.on_init` does. -/
structure DirectiveKind where
  name : List Char
  parseConfig : List Char → List (List Char × List Char) → Bool
  onInit : List (List Char × Nat) → List (List Char × Nat)

/-- `self.trackers[name]`; reachable states always hold every registered
name (set by `_reset`), so the missing-key `KeyError` case is unreachable
and defaults to the empty tracker. -/
def lookupTracker (trs : List (List Char × List (List Char × Nat))) (n : List Char) :
    List (List Char × Nat) :=
  match trs.find? (fun p => p.1 == n) with
  | some p => p.2
  | none => []

/-- In-place mutation of the tracker dict bound to name `n`. -/
def updateTracker (trs : List (List Char × List (List Char × Nat))) (n : List Char)
    (v : List (List Char × Nat)) : List (List Char × List (List Char × Nat)) :=
  trs.map (fun p => if p.1 == n then (p.1, v) else p)

/-- `DirectiveProcessor.test`.  Continuation first (`get_parent`), then the
start-fence search: an unknown name or a rejecting `parse_config` returns
`False`; an accepted occurrence caches the directive and the first leftover
block for the immediately following `run`.  The element tree is only read
(through `parent`), never written: elements are created in `run` alone. -/
def testM (reg : List DirectiveKind) (yamlF : List Char → Except Unit YamlValue)
    (st : PState) (parent : Element) (block : List Char) : Bool × PState :=
  let gp := get_parent st parent
  match gp.1 with
  | some _ => (true, gp.2)
  | none =>
    let lines := splitLines block
    match findStartLine lines with
    | some (li, flen, nm, args) =>
      let name := nm.map Char.toLower
      match reg.find? (fun d => d.name == name) with
      | some dk =>
        let st2 := { gp.2 with
          trackers := updateTracker gp.2.trackers name
            (dk.onInit (lookupTracker gp.2.trackers name)) }
        let rest := joinLines (lines.drop (li + 1))
        let hr := split_header yamlF rest []
        let status := dk.parseConfig args hr.1
        (status,
         if status then
           { st2 with cachedDirective := some ({ name := name, length := flen }, hr.2.headD []) }
         else st2)
      | none => (false, gp.2)
    | none => (false, gp.2)

/-- `self.stack[index].hungry = True` for `index = len(self.stack) - 1`. -/
def setLastHungry : List Entry → List Entry
  | [] => []
  | [e] => [{ e with hungry := true }]
  | e :: e' :: es => e :: setLastHungry (e' :: es)

/-- `DirectiveProcessor.run`, one host invocation.  The content dispatch
(`parse_blocks`) touches only the target elements and the save/restored
`working` slot, so on this state it is the identity; nested re-entry through
`parser.parseChunk` is modelled as further invocations (see the `Step`
relation below).  Returns the new state and the mutated `blocks` list. -/
def runM (st : PState) (parent : Element) (blocks : List Block) :
    PState × List Block :=
  let gp := get_parent st parent
  let st1 := gp.2
  let par := gp.1.getD parent
  match st1.cachedDirective with
  | some (d, blk) =>
    let st2 := { st1 with cachedDirective := none }
    let blocks1 := blocks.drop 1
    let blocks2 := if blk ≠ [] then blk :: blocks1 else blocks1
    let entry : Entry := { directive := d, parentId := par.eid, hungry := false }
    let stack1 := st2.stack ++ [entry]
    let se := split_end blocks2 d.length
    let stack2 := if se.2.2 then stack1.dropLast else setLastHungry stack1
    ({ st2 with stack := stack2 }, se.2.1)
  | none =>
    match st1.stack.findIdx? (fun en => en.hungry && en.parentId == par.eid) with
    | some r =>
      let en := st1.stack.getD r default
      let se := split_end blocks en.directive.length
      let stack2 := if se.2.2 then st1.stack.eraseIdx r else st1.stack
      ({ st1 with stack := stack2 }, se.2.1)
    | none => (st1, blocks)

/-- Is there an end fence of run length `≥ k` somewhere in the blocks? -/
def hasEnd (blocks : List Block) (k : Nat) : Bool :=
  blocks.any (fun b => (splitLines b).any (fun l => qualLine k l))

theorem findEndLine_isSome (lines : List Line) (k : Nat) :
    (findEndLine lines k).isSome = lines.any (fun l => qualLine k l) := by
  induction lines with
  | nil => rfl
  | cons l ls ih =>
    rw [findEndLine]
    cases hq : qualLine k l with
    | true => simp [hq]
    | false => simp [hq, ih]

theorem split_end_flag (blocks : List Block) (k : Nat) :
    (split_end blocks k).2.2 = hasEnd blocks k := by
  induction blocks with
  | nil => rfl
  | cons b bs ih =>
    rw [split_end]
    cases hf : findEndLine (splitLines b) k with
    | some i =>
      have := findEndLine_isSome (splitLines b) k
      rw [hf] at this
      simp [hasEnd, ← this]
    | none =>
      have := findEndLine_isSome (splitLines b) k
      rw [hf] at this
      simp only [hasEnd, List.any_cons, ← this, Option.isSome_none, Bool.false_or]
      exact ih

theorem setLastHungry_concat (l : List Entry) (e : Entry) :
    setLastHungry (l ++ [e]) = l ++ [{ e with hungry := true }] := by
  induction l with
  | nil => rfl
  | cons x xs ih =>
    cases xs with
    | nil => rfl
    | cons y ys =>
      show x :: setLastHungry ((y :: ys) ++ [e]) =
        x :: ((y :: ys) ++ [{ e with hungry := true }])
      rw [ih]

theorem get_parent_fields (st : PState) (p : Element) :
    (get_parent st p).2.stack = st.stack ∧
    (get_parent st p).2.working = st.working ∧
    (get_parent st p).2.trackers = st.trackers ∧
    (get_parent st p).2.cachedDirective = st.cachedDirective := by
  rw [get_parent]
  cases h : st.cachedParent with
  | none => cases hs : searchChain st.stack p <;> simp
  | some cp =>
    cases ht : truthy cp with
    | true => simp [ht]
    | false => cases hs : searchChain st.stack p <;> simp [ht, hs]

/-- C4: when the tested block's start fence names an unknown directive, or
the directive's validator `parse_config` rejects the occurrence, and no open
directive claims the parent (no continuation), `test` returns `False`
without raising (the model is total), leaves the stack and the cached
directive untouched — so `run` is not invoked for this occurrence, no
element is created (`on_create` runs only inside `run` behind a set
`cached_directive`), and the text is left to ordinary processing. -/
theorem claim4_test_rejects_gracefully
    (reg : List DirectiveKind) (yamlF : List Char → Except Unit YamlValue)
    (st : PState) (parent : Element) (block : List Char)
    (li flen : Nat) (nm args : List Char) :
    st.cachedParent = none →
    searchChain st.stack parent = none →
    findStartLine (splitLines block) = some (li, flen, nm, args) →
    (reg.find? (fun d => d.name == nm.map Char.toLower) = none ∨
     ∃ dk, reg.find? (fun d => d.name == nm.map Char.toLower) = some dk ∧
       dk.parseConfig args
         (split_header yamlF (joinLines ((splitLines block).drop (li + 1))) []).1 = false) →
    (testM reg yamlF st parent block).1 = false ∧
    (testM reg yamlF st parent block).2.stack = st.stack ∧
    (testM reg yamlF st parent block).2.cachedDirective = st.cachedDirective ∧
    (testM reg yamlF st parent block).2.cachedParent = none := by
  intro hc hs hf hrej
  have hgp : get_parent st parent = (none, st) := by
    rw [get_parent, hc, hs]
  rw [testM, hgp]
  simp only [hf]
  rcases hrej with hrej | ⟨dk, hdk, hrej⟩
  · rw [hrej]
    exact ⟨by trivial, by trivial, by trivial, hc⟩
  · rw [hdk]
    simp only [hrej, Bool.false_eq_true, if_false]
    exact ⟨by trivial, by trivial, by trivial, hc⟩

theorem claim4_witness :
    (testM [{ name := "note".toList, parseConfig := fun _ _ => true, onInit := id }]
        (fun _ => Except.error ())
        { stack := [], working := none, trackers := [("note".toList, [])],
          cachedParent := none, cachedDirective := none }
        (Element.node 0 []) "::: {bogus} x\ncontent".toList).1 = false ∧
    (testM [{ name := "note".toList, parseConfig := fun _ _ => true, onInit := id }]
        (fun _ => Except.error ())
        { stack := [], working := none, trackers := [("note".toList, [])],
          cachedParent := none, cachedDirective := none }
        (Element.node 0 []) "::: {bogus} x\ncontent".toList).2.cachedDirective = none := by
  have h := claim4_test_rejects_gracefully
    [{ name := "note".toList, parseConfig := fun _ _ => true, onInit := id }]
    (fun _ => Except.error ())
    { stack := [], working := none, trackers := [("note".toList, [])],
      cachedParent := none, cachedDirective := none }
    (Element.node 0 []) "::: {bogus} x\ncontent".toList
    0 3 "bogus".toList " x".toList rfl rfl (by decide) (Or.inl rfl)
  exact ⟨h.1, h.2.2.1⟩

/-- C6: during one `run` invocation a stack entry is removed exactly when an
end fence of run length at least the directive's `length` occurs among the
blocks handed to `split_end`; with no such fence the entry stays on the
stack marked hungry.  For a fresh occurrence (cached directive) the searched
blocks are the supplied blocks after the consumed first block and the
reinserted header leftover; for a continuation they are the supplied blocks
themselves.  An unterminated directive is never removed here — it persists
hungry across host invocations. -/
theorem claim6_run_removes_iff_end (st : PState) (parent : Element) (blocks : List Block) :
    (∀ d blk, st.cachedDirective = some (d, blk) →
      (runM st parent blocks).1.stack =
        (if hasEnd (if blk ≠ [] then blk :: blocks.drop 1 else blocks.drop 1) d.length
         then st.stack
         else st.stack ++
           [{ directive := d,
              parentId := ((get_parent st parent).1.getD parent).eid,
              hungry := true }])) ∧
    (∀ r, st.cachedDirective = none →
      st.stack.findIdx?
          (fun en => en.hungry && en.parentId == ((get_parent st parent).1.getD parent).eid)
        = some r →
      (runM st parent blocks).1.stack =
        (if hasEnd blocks (st.stack.getD r default).directive.length
         then st.stack.eraseIdx r else st.stack)) := by
  obtain ⟨hst, hw, htr, hcd⟩ := get_parent_fields st parent
  constructor
  · intro d blk hd
    rw [runM]
    simp only [hcd, hd, hst]
    rw [← split_end_flag]
    cases he : (split_end (if blk ≠ [] then blk :: blocks.drop 1 else blocks.drop 1) d.length).2.2 with
    | true => simp [List.dropLast_concat]
    | false => simp [setLastHungry_concat]
  · intro r hd hr
    rw [runM]
    simp only [hcd, hd, hst, hr]
    rw [← split_end_flag]

theorem claim6_witness :
    (runM
        { stack := [], working := none, trackers := [],
          cachedParent := none,
          cachedDirective := some ({ name := "note".toList, length := 3 }, "body".toList) }
        (Element.node 0 []) ["::: {note}\nbody".toList, "more\n::::".toList]).1.stack =
      [] ∧
    (runM
        { stack := [{ directive := { name := "note".toList, length := 3 },
                      parentId := 0, hungry := true }],
          working := none, trackers := [], cachedParent := none, cachedDirective := none }
        (Element.node 0 [Element.node 1 []]) ["still open".toList]).1.stack =
      [{ directive := { name := "note".toList, length := 3 }, parentId := 0, hungry := true }] := by
  constructor
  · have h := (claim6_run_removes_iff_end
      { stack := [], working := none, trackers := [],
        cachedParent := none,
        cachedDirective := some ({ name := "note".toList, length := 3 }, "body".toList) }
      (Element.node 0 []) ["::: {note}\nbody".toList, "more\n::::".toList]).1
      { name := "note".toList, length := 3 } "body".toList rfl
    rw [h]
    decide
  · have h := (claim6_run_removes_iff_end
      { stack := [{ directive := { name := "note".toList, length := 3 },
                    parentId := 0, hungry := true }],
        working := none, trackers := [], cachedParent := none, cachedDirective := none }
      (Element.node 0 [Element.node 1 []]) ["still open".toList]).2 0 rfl (by decide)
    rw [h]
    decide

/-! ## `_reset` and host invocation sequences -/

/-- The tracker map `_reset` builds: one empty mapping per registered
directive name. -/
def freshTrackers (reg : List DirectiveKind) :
    List (List Char × List (List Char × Nat)) :=
  reg.map (fun d => (d.name, []))

/-- `DirectiveProcessor._reset`: clear the stack and the working slot and
rebuild the tracker map fresh.  (The two caches are not fields `_reset`
touches; every quiescent state between host invocations has them empty, see
`hostStep_caches_none` below.) -/
def resetP (reg : List DirectiveKind) (st : PState) : PState :=
  { st with stack := [], working := none, trackers := freshTrackers reg }

/-- One host invocation: `test` on the first block and, when the block is
claimed, `run` on the block list — the calling convention of the host's
block parser. -/
def hostStep (reg : List DirectiveKind) (yamlF : List Char → Except Unit YamlValue)
    (st : PState) (parent : Element) (blocks : List Block) : PState :=
  let tm := testM reg yamlF st parent (blocks.headD [])
  if tm.1 then (runM tm.2 parent blocks).1 else tm.2

/-- A whole parse: the host's sequence of invocations, each with the parent
context and block list it chooses. -/
def runSeq (reg : List DirectiveKind) (yamlF : List Char → Except Unit YamlValue)
    (inputs : List (Element × List Block)) (st : PState) : PState :=
  inputs.foldl (fun s pb => hostStep reg yamlF s pb.1 pb.2) st

/-- `Tabs.on_init` (from `tabs.py`): start the tab-group counter at 0 when
the tracker does not hold one yet. -/
def tabsOnInit (tr : List (List Char × Nat)) : List (List Char × Nat) :=
  if (tr.find? (fun p => p.1 == "tab_group_count".toList)).isSome then tr
  else tr ++ [("tab_group_count".toList, 0)]

/-- C8: `_reset` empties the stack, clears the working slot and rebuilds the
tracker map with one empty mapping per registered directive name (so
`Tabs.on_init` restarts the tab-group counter at 0 on the next occurrence);
consequently two engines whose caches are quiescent (empty — the invariable
state between host invocations) are in identical states after `_reset`, and
re-running any sequence of host invocations on the same input from those
states yields identical results. -/
theorem claim8_reset_restores_initial_state
    (reg : List DirectiveKind) (yamlF : List Char → Except Unit YamlValue)
    (st st1 st2 : PState) :
    (resetP reg st).stack = [] ∧
    (resetP reg st).working = none ∧
    (resetP reg st).trackers = reg.map (fun d => (d.name, [])) ∧
    tabsOnInit [] = [("tab_group_count".toList, 0)] ∧
    (st1.cachedParent = none → st1.cachedDirective = none →
     st2.cachedParent = none → st2.cachedDirective = none →
      resetP reg st1 = resetP reg st2 ∧
      ∀ inputs, runSeq reg yamlF inputs (resetP reg st1) =
        runSeq reg yamlF inputs (resetP reg st2)) := by
  refine ⟨rfl, rfl, rfl, rfl, ?_⟩
  intro h1 h2 h3 h4
  have heq : resetP reg st1 = resetP reg st2 := by
    cases st1
    cases st2
    simp_all [resetP]
  exact ⟨heq, fun inputs => by rw [heq]⟩

theorem claim8_witness :
    runSeq [{ name := "note".toList, parseConfig := fun _ _ => true, onInit := id }]
        (fun _ => Except.error ())
        [(Element.node 0 [], ["hello".toList])]
        (resetP [{ name := "note".toList, parseConfig := fun _ _ => true, onInit := id }]
          { stack := [{ directive := { name := "note".toList, length := 3 },
                        parentId := 7, hungry := true }],
            working := some default, trackers := [("note".toList, [("x".toList, 9)])],
            cachedParent := none, cachedDirective := none }) =
      runSeq [{ name := "note".toList, parseConfig := fun _ _ => true, onInit := id }]
        (fun _ => Except.error ())
        [(Element.node 0 [], ["hello".toList])]
        (resetP [{ name := "note".toList, parseConfig := fun _ _ => true, onInit := id }]
          { stack := [], working := none, trackers := [],
            cachedParent := none, cachedDirective := none }) :=
  ((claim8_reset_restores_initial_state
      [{ name := "note".toList, parseConfig := fun _ _ => true, onInit := id }]
      (fun _ => Except.error ())
      { stack := [], working := none, trackers := [],
        cachedParent := none, cachedDirective := none }
      { stack := [{ directive := { name := "note".toList, length := 3 },
                    parentId := 7, hungry := true }],
        working := some default, trackers := [("note".toList, [("x".toList, 9)])],
        cachedParent := none, cachedDirective := none }
      { stack := [], working := none, trackers := [],
        cachedParent := none, cachedDirective := none }).2.2.2.2
    rfl rfl rfl rfl).2 [(Element.node 0 [], ["hello".toList])]

/-! ## Reverting stashed fenced code -/

/-- The SuperFences stash (an external collaborator): a mapping from
placeholder key to the stashed original text and its original column.  Only
its `get`/`remove` interface is used by the engine. -/
structure Stash where
  entries : List (List Char × (List Char × Int))

def Stash.get (sf : Stash) (k : List Char) : Option (List Char × Int) :=
  (sf.entries.find? (fun p => p.1 == k)).map (fun p => p.2)

def Stash.remove (sf : Stash) (k : List Char) : Stash :=
  ⟨sf.entries.filter (fun p => !(p.1 == k))⟩

/-- Per-line match of `FENCED_BLOCK_RE`
(`^([\> ]*)\x02(wzxhzdk:([0-9]+))\x03$`): returns the indent level
(`len(group(1))`) and the key (`group(2)`). -/
def matchPlaceholder (l : Line) : Option (Nat × List Char) :=
  let pre := l.takeWhile (fun c => c = '>' || c = ' ')
  let r1 := l.dropWhile (fun c => c = '>' || c = ' ')
  match r1 with
  | c :: r2 =>
    if c = Char.ofNat 2 then
      if r2.take 8 = "wzxhzdk:".toList then
        let digits := (r2.drop 8).takeWhile Char.isDigit
        let r3 := (r2.drop 8).dropWhile Char.isDigit
        if digits ≠ [] ∧ r3 = [Char.ofNat 3] then
          some (pre.length, "wzxhzdk:".toList ++ digits)
        else none
      else none
    else none
  | [] => none

/-- Python's `line[index:]` for a possibly negative `index`. -/
def pySliceFrom (l : List Char) (i : Int) : List Char :=
  if 0 ≤ i then l.drop i.toNat
  else l.drop (l.length - min l.length (-i).toNat)

/-- `reindent`: strip `pos - level` leading columns from every line of the
stashed text (Python slice semantics, so a negative index keeps a suffix). -/
def reindent (text : List Char) (pos : Int) (level : Nat) : List Line :=
  (splitLines text).map (fun line => pySliceFrom line (pos - (level : Int)))

/-- The loop body of `revert_fenced_code` for one line: a resolvable
placeholder is replaced by the reindented stashed text and its stash entry
removed; an unresolvable placeholder (or any other line) is kept verbatim. -/
def revertLine (sf : Stash) (line : Line) : List Line × Stash :=
  match matchPlaceholder line with
  | some (lvl, key) =>
    match sf.get key with
    | some (orig, pos) => (reindent orig pos lvl, sf.remove key)
    | none => ([line], sf)
  | none => ([line], sf)

def revertLines (sf : Stash) : List Line → List Line × Stash
  | [] => ([], sf)
  | l :: ls =>
    let r1 := revertLine sf l
    let r2 := revertLines r1.2 ls
    (r1.1 ++ r2.1, r2.2)

def revertBlocks (sf : Stash) : List Block → List Block × Stash
  | [] => ([], sf)
  | b :: bs =>
    let r1 := revertLines sf (splitLines b)
    let r2 := revertBlocks r1.2 bs
    (joinLines r1.1 :: r2.1, r2.2)

/-- `revert_fenced_code`: when the SuperFences subsystem is absent the
blocks are returned untouched; otherwise every placeholder line is reverted
through the stash. -/
def revert_fenced_code (superfences : Option Stash) (blocks : List Block) :
    List Block × Option Stash :=
  match superfences with
  | none => (blocks, none)
  | some sf =>
    let r := revertBlocks sf blocks
    (r.1, some r.2)

theorem revertLines_id (sf : Stash) (ls : List Line)
    (h : ∀ l ∈ ls, matchPlaceholder l = none) :
    revertLines sf ls = (ls, sf) := by
  induction ls with
  | nil => rfl
  | cons l ls ih =>
    have h1 := h l (by simp)
    have h2 := ih (fun x hx => h x (by simp [hx]))
    simp [revertLines, revertLine, h1, h2]

theorem joinLines_single (l : Line) : joinLines [l] = l := by
  simp [joinLines, List.intercalate]

theorem splitLines_no_newline (l : Line) (h : ∀ c ∈ l, c ≠ '\n') :
    splitLines l = [l] := by
  induction l with
  | nil => rfl
  | cons c cs ih =>
    have h1 : c ≠ '\n' := h c (by simp)
    have h2 := ih (fun x hx => h x (by simp [hx]))
    simp [splitLines, h1, h2]

/-- C9: `revert_fenced_code` never raises (it is total).  With the
SuperFences subsystem absent, the blocks are returned unchanged.  With it
present: lines that are not placeholders are kept as they are; a placeholder
line whose key resolves in the stash is replaced by the stashed text,
re-indented by the original column minus the placeholder's surrounding
indent, and its stash entry is removed; a placeholder line whose key is not
in the stash is kept verbatim and the stash is untouched. -/
theorem claim9_revert_fenced_code_best_effort
    (sf : Stash) (blocks : List Block) (line : Line)
    (lvl : Nat) (key orig : List Char) (pos : Int) :
    (revert_fenced_code none blocks = (blocks, none)) ∧
    ((∀ b ∈ blocks, ∀ l ∈ splitLines b, matchPlaceholder l = none) →
      revert_fenced_code (some sf) blocks = (blocks, some sf)) ∧
    ((∀ c ∈ line, c ≠ '\n') → matchPlaceholder line = some (lvl, key) →
      sf.get key = some (orig, pos) →
      revert_fenced_code (some sf) [line] =
        ([joinLines (reindent orig pos lvl)], some (sf.remove key))) ∧
    ((∀ c ∈ line, c ≠ '\n') → matchPlaceholder line = some (lvl, key) →
      sf.get key = none →
      revert_fenced_code (some sf) [line] = ([line], some sf)) := by
  refine ⟨rfl, ?_, ?_, ?_⟩
  · intro h
    rw [revert_fenced_code]
    have hb : revertBlocks sf blocks = (blocks, sf) := by
      induction blocks with
      | nil => rfl
      | cons b bs ih =>
        rw [revertBlocks, revertLines_id sf _ (h b (by simp))]
        rw [ih (fun x hx l hl => h x (by simp [hx]) l hl)]
        simp [joinLines_splitLines]
    rw [hb]
  · intro hnl hm hget
    simp [revert_fenced_code, revertBlocks, splitLines_no_newline line hnl,
      revertLines, revertLine, hm, hget]
  · intro hnl hm hget
    simp [revert_fenced_code, revertBlocks, splitLines_no_newline line hnl,
      revertLines, revertLine, hm, hget, joinLines_single]

theorem claim9_witness :
    revert_fenced_code
        (some ⟨[("wzxhzdk:1".toList, ("  code line".toList, (5 : Int)))]⟩)
        [['>', ' ', Char.ofNat 2] ++ "wzxhzdk:1".toList ++ [Char.ofNat 3]] =
      ([joinLines (reindent "  code line".toList (5 : Int) 2)], some ⟨[]⟩) ∧
    revert_fenced_code
        (some ⟨[]⟩)
        [['>', ' ', Char.ofNat 2] ++ "wzxhzdk:9".toList ++ [Char.ofNat 3]] =
      ([['>', ' ', Char.ofNat 2] ++ "wzxhzdk:9".toList ++ [Char.ofNat 3]], some ⟨[]⟩) := by
  constructor
  · exact (claim9_revert_fenced_code_best_effort
      ⟨[("wzxhzdk:1".toList, ("  code line".toList, (5 : Int)))]⟩ []
      (['>', ' ', Char.ofNat 2] ++ "wzxhzdk:1".toList ++ [Char.ofNat 3])
      2 "wzxhzdk:1".toList "  code line".toList (5 : Int)).2.2.1
      (by decide) (by decide) (by decide)
  · exact (claim9_revert_fenced_code_best_effort
      ⟨[]⟩ []
      (['>', ' ', Char.ofNat 2] ++ "wzxhzdk:9".toList ++ [Char.ofNat 3])
      2 "wzxhzdk:9".toList [] 0).2.2.2
      (by decide) (by decide) (by decide)

/-! ## Reachable engine states and the hungry-uniqueness invariant (C5)

Node ids model Python object identity.  `findNode` resolves an id to its
node in the current tree; `Grow` is the host/tree contract: `etree` elements
are only ever added, never removed, by the engine and the host's block
processors, so a node that has children keeps having children.  A `Step` is
either one host invocation of the engine (`test`, then `run` when the block
is claimed — the block parser's calling convention) at a parent node of the
current tree, or an action of some other processor, which may grow the tree
but does not touch the engine's state.  When an invocation opens a directive
(the only way the stack can grow), `on_create` has placed the directive's
root element under the parent (`details`/`tabs`/`figure`/`html` all do, and
the spec's `create` contract requires it), so the parent node has a child in
the new tree — the `hopen` hypothesis of `Step.host`. -/

/-- First depth-first occurrence of the node with identity `k`, with
explicit fuel (bounded by the total node count of the worklist). -/
def findNodeFuel : Nat → List Element → Nat → Option Element
  | 0, _, _ => none
  | _ + 1, [], _ => none
  | n + 1, t :: ts, k =>
    if t.eid == k then some t
    else
      match findNodeFuel n t.children k with
      | some u => some u
      | none => findNodeFuel n ts k

def findNode (t : Element) (k : Nat) : Option Element :=
  findNodeFuel (esize t) [t] k

theorem findNodeFuel_eid : ∀ n (l : List Element) (k : Nat) (u : Element),
    findNodeFuel n l k = some u → u.eid = k := by
  intro n
  induction n with
  | zero => intro l k u h; simp [findNodeFuel] at h
  | succ n ih =>
    intro l k u h
    cases l with
    | nil => simp [findNodeFuel] at h
    | cons t ts =>
      rw [findNodeFuel] at h
      by_cases he : (t.eid == k) = true
      · rw [if_pos he] at h
        cases h
        exact Nat.eq_of_beq_eq_true (by simpa using he)
      · rw [if_neg he] at h
        cases hc : findNodeFuel n t.children k with
        | some v =>
          rw [hc] at h
          cases h
          exact ih t.children k u hc
        | none =>
          rw [hc] at h
          exact ih ts k u h

theorem findNode_eid (t : Element) (k : Nat) (u : Element) :
    findNode t k = some u → u.eid = k :=
  findNodeFuel_eid (esize t) [t] k u

/-- The tree contract of one step: elements are only added, never removed,
so an id that resolves to a node with children still does afterwards. -/
def Grow (t t' : Element) : Prop :=
  ∀ k u, findNode t k = some u → u.children ≠ [] →
    ∃ u', findNode t' k = some u' ∧ u'.children ≠ []

theorem Grow.refl (t : Element) : Grow t t := fun _ u h hc => ⟨u, h, hc⟩

/-- C5's invariant proper: for every node id, at most one stack entry is
simultaneously hungry and records that node as its parent. -/
def HungryUniq (stack : List Entry) : Prop :=
  ∀ p, (stack.filter (fun en => en.hungry && en.parentId == p)).length ≤ 1

/-- Auxiliary invariant: a hungry entry's recorded parent is a node of the
tree that has at least one child (its directive's `on_create` put its root
element there). -/
def ParentsTruthy (t : Element) (stack : List Entry) : Prop :=
  ∀ en ∈ stack, en.hungry = true →
    ∃ u, findNode t en.parentId = some u ∧ u.children ≠ []

/-- The full invariant on quiescent states (between host invocations): the
hungry entries are unique per parent, their parents are truthy nodes of the
tree, and both single-call caches are empty. -/
def EngineInv (t : Element) (st : PState) : Prop :=
  HungryUniq st.stack ∧ ParentsTruthy t st.stack ∧
  st.cachedParent = none ∧ st.cachedDirective = none

theorem searchChainFuel_some_truthy : ∀ n (stack : List Entry) (t u : Element),
    searchChainFuel stack n t = some u → truthy u = true := by
  intro n
  induction n with
  | zero => intro stack t u h; simp [searchChainFuel] at h
  | succ n ih =>
    intro stack t u h
    cases t with
    | node i cs =>
      cases cs with
      | nil => simp [searchChainFuel] at h
      | cons c cs' =>
        rw [searchChainFuel] at h
        by_cases hq : hungryAt stack i = true
        · rw [if_pos hq] at h
          cases h
          simp [truthy, Element.children]
        · rw [if_neg hq] at h
          exact ih stack (lastTree c cs') u h

theorem searchChain_some_truthy (stack : List Entry) (t u : Element) :
    searchChain stack t = some u → truthy u = true :=
  searchChainFuel_some_truthy (esize t) stack t u

theorem searchChain_none_not_hungryAt (stack : List Entry) (t : Element) :
    searchChain stack t = none → truthy t = true → hungryAt stack t.eid = false := by
  intro h ht
  cases t with
  | node i cs =>
    cases cs with
    | nil => simp [truthy, Element.children] at ht
    | cons c cs' =>
      have h1 : esize (Element.node i (c :: cs')) = esizeL (c :: cs') + 1 := by
        simp only [esize]; omega
      rw [searchChain, h1, searchChainFuel] at h
      by_cases hq : hungryAt stack i = true
      · rw [if_pos hq] at h
        simp at h
      · simpa [Element.eid] using hq

theorem hungryAt_false_no_entry (stack : List Entry) (p : Nat)
    (h : hungryAt stack p = false) :
    ∀ en ∈ stack, ¬(en.hungry = true ∧ en.parentId = p) := by
  intro en hen ⟨hh, hp⟩
  rw [hungryAt, List.any_eq_false] at h
  have := h en hen
  simp [hh, hp] at this

theorem HungryUniq_of_sublist {l l' : List Entry} (h : l.Sublist l')
    (hu : HungryUniq l') : HungryUniq l := by
  intro p
  exact le_trans (List.Sublist.length_le (List.Sublist.filter _ h)) (hu p)

theorem HungryUniq_append_fresh (stack : List Entry) (d : DirectiveV) (pid : Nat)
    (hu : HungryUniq stack)
    (hfresh : ∀ en ∈ stack, ¬(en.hungry = true ∧ en.parentId = pid)) :
    HungryUniq (stack ++ [{ directive := d, parentId := pid, hungry := true }]) := by
  intro p
  rw [List.filter_append, List.length_append]
  by_cases hp : pid = p
  · subst hp
    have h0 : stack.filter (fun en => en.hungry && en.parentId == pid) = [] := by
      rw [List.filter_eq_nil_iff]
      intro en hen hcon
      simp only [Bool.and_eq_true, beq_iff_eq] at hcon
      exact hfresh en hen ⟨hcon.1, hcon.2⟩
    rw [h0]
    simp
  · have h1 : ([{ directive := d, parentId := pid, hungry := true }] : List Entry).filter
        (fun en => en.hungry && en.parentId == p) = [] := by
      have : ((pid == p) = false) := by simpa using hp
      simp [List.filter, this]
    rw [h1]
    have := hu p
    simpa using this

theorem ParentsTruthy_of_sublist {t : Element} {l l' : List Entry}
    (h : l.Sublist l') (hp : ParentsTruthy t l') : ParentsTruthy t l :=
  fun en hen hh => hp en (List.Sublist.mem hen h) hh

theorem ParentsTruthy_grow {t t' : Element} {l : List Entry}
    (hg : Grow t t') (hp : ParentsTruthy t l) : ParentsTruthy t' l := by
  intro en hen hh
  obtain ⟨u, hu, hc⟩ := hp en hen hh
  exact hg en.parentId u hu hc

theorem ParentsTruthy_append {t : Element} {l : List Entry}
    (d : DirectiveV) (pid : Nat) (u : Element)
    (hp : ParentsTruthy t l) (hu : findNode t pid = some u) (hc : u.children ≠ []) :
    ParentsTruthy t (l ++ [{ directive := d, parentId := pid, hungry := true }]) := by
  intro en hen hh
  rcases List.mem_append.mp hen with hen | hen
  · exact hp en hen hh
  · have : en = { directive := d, parentId := pid, hungry := true } := by simpa using hen
    subst this
    exact ⟨u, hu, hc⟩

theorem testM_continue (reg : List DirectiveKind) (yamlF : List Char → Except Unit YamlValue)
    (ps : PState) (pt u : Element) (b : List Char)
    (hcp : ps.cachedParent = none) (hs : searchChain ps.stack pt = some u) :
    testM reg yamlF ps pt b = (true, { ps with cachedParent := some u }) := by
  have hgp : get_parent ps pt = (some u, { ps with cachedParent := some u }) := by
    rw [get_parent, hcp, hs]
  rw [testM]
  simp only [hgp]

theorem testM_no_continuation (reg : List DirectiveKind)
    (yamlF : List Char → Except Unit YamlValue)
    (ps : PState) (pt : Element) (b : List Char)
    (hcp : ps.cachedParent = none) (hcd : ps.cachedDirective = none)
    (hs : searchChain ps.stack pt = none) :
    (∃ st', testM reg yamlF ps pt b = (false, st') ∧
      st'.stack = ps.stack ∧ st'.cachedParent = none ∧ st'.cachedDirective = none) ∨
    (∃ st' d blk, testM reg yamlF ps pt b = (true, st') ∧
      st'.stack = ps.stack ∧ st'.cachedParent = none ∧
      st'.cachedDirective = some (d, blk)) := by
  have hgp : get_parent ps pt = (none, ps) := by
    rw [get_parent, hcp, hs]
  rw [testM]
  simp only [hgp]
  cases hfs : findStartLine (splitLines b) with
  | none => exact Or.inl ⟨ps, rfl, rfl, hcp, hcd⟩
  | some q =>
    obtain ⟨li, flen, nm, args⟩ := q
    simp only
    cases hfind : reg.find? (fun d => d.name == nm.map Char.toLower) with
    | none => exact Or.inl ⟨ps, rfl, rfl, hcp, hcd⟩
    | some dk =>
      simp only
      cases hstat : dk.parseConfig args
          (split_header yamlF (joinLines ((splitLines b).drop (li + 1))) []).1 with
      | false =>
        simp only [Bool.false_eq_true, if_false]
        exact Or.inl ⟨_, rfl, rfl, hcp, hcd⟩
      | true =>
        simp only [if_true]
        exact Or.inr ⟨_, _, _, rfl, rfl, hcp, rfl⟩

theorem runM_open (st : PState) (pt : Element) (blocks : List Block)
    (d : DirectiveV) (blk : List Char)
    (hcp : st.cachedParent = none) (hs : searchChain st.stack pt = none)
    (hcd : st.cachedDirective = some (d, blk)) :
    (runM st pt blocks).1 =
      { st with
          cachedDirective := none
          stack :=
            (if (split_end (if blk ≠ [] then blk :: blocks.drop 1 else blocks.drop 1)
                  d.length).2.2
             then st.stack
             else st.stack ++
               [{ directive := d, parentId := pt.eid, hungry := true }]) } := by
  have hgp : get_parent st pt = (none, st) := by
    rw [get_parent, hcp, hs]
  rw [runM]
  simp only [hgp, hcd, Option.getD]
  cases he : (split_end (if blk ≠ [] then blk :: blocks.drop 1 else blocks.drop 1)
      d.length).2.2 with
  | true => simp [he, List.dropLast_concat]
  | false => simp [he, setLastHungry_concat]

theorem runM_continue (st : PState) (pt u : Element) (blocks : List Block)
    (hcpu : st.cachedParent = some u) (htru : truthy u = true)
    (hcd : st.cachedDirective = none) :
    ∃ stack', (runM st pt blocks).1 = { st with cachedParent := none, stack := stack' } ∧
      (stack' = st.stack ∨ ∃ r, stack' = st.stack.eraseIdx r) := by
  have hgp : get_parent st pt = (some u, { st with cachedParent := none }) := by
    rw [get_parent, hcpu]
    simp [htru]
  rw [runM]
  simp only [hgp, hcd, Option.getD]
  cases hidx : st.stack.findIdx? (fun en => en.hungry && en.parentId == u.eid) with
  | none => exact ⟨st.stack, rfl, Or.inl rfl⟩
  | some r =>
    simp only
    cases he : (split_end blocks ((st.stack.getD r default).directive.length)).2.2 with
    | true => exact ⟨st.stack.eraseIdx r, by simp [he], Or.inr ⟨r, rfl⟩⟩
    | false => exact ⟨st.stack, by simp [he], Or.inl rfl⟩

/-- The three possible effects of one host invocation on a quiescent state:
nothing, removal of one entry (an end fence closed a continuation), or the
push of one new hungry entry at the queried parent — the latter only when
the continuation search at that parent failed. -/
theorem hostStep_characterization (reg : List DirectiveKind)
    (yamlF : List Char → Except Unit YamlValue)
    (ps : PState) (pt : Element) (blocks : List Block)
    (hcp : ps.cachedParent = none) (hcd : ps.cachedDirective = none) :
    (hostStep reg yamlF ps pt blocks).cachedParent = none ∧
    (hostStep reg yamlF ps pt blocks).cachedDirective = none ∧
    ((hostStep reg yamlF ps pt blocks).stack = ps.stack ∨
     (∃ r, (hostStep reg yamlF ps pt blocks).stack = ps.stack.eraseIdx r) ∨
     (searchChain ps.stack pt = none ∧
      ∃ d : DirectiveV, (hostStep reg yamlF ps pt blocks).stack =
        ps.stack ++ [{ directive := d, parentId := pt.eid, hungry := true }])) := by
  cases hs : searchChain ps.stack pt with
  | some u =>
    have htm := testM_continue reg yamlF ps pt u (blocks.headD []) hcp hs
    have htru := searchChain_some_truthy ps.stack pt u hs
    obtain ⟨stack', hrun, hst'⟩ :=
      runM_continue { ps with cachedParent := some u } pt u blocks rfl htru hcd
    have hhs : hostStep reg yamlF ps pt blocks =
        { ps with cachedParent := none, stack := stack' } := by
      rw [hostStep, htm]
      simpa using hrun
    refine ⟨by rw [hhs], by rw [hhs]; exact hcd, ?_⟩
    rcases hst' with h | ⟨r, h⟩
    · exact Or.inl (by rw [hhs]; exact h)
    · exact Or.inr (Or.inl ⟨r, by rw [hhs]; exact h⟩)
  | none =>
    rcases testM_no_continuation reg yamlF ps pt (blocks.headD []) hcp hcd hs with
      ⟨st', htm, hstk, hcp', hcd'⟩ | ⟨st', d, blk, htm, hstk, hcp', hcd'⟩
    · have hhs : hostStep reg yamlF ps pt blocks = st' := by
        rw [hostStep, htm]
        simp
      refine ⟨by rw [hhs]; exact hcp', by rw [hhs]; exact hcd', ?_⟩
      exact Or.inl (by rw [hhs]; exact hstk)
    · have hs' : searchChain st'.stack pt = none := by rw [hstk]; exact hs
      have hrun := runM_open st' pt blocks d blk hcp' hs' hcd'
      have hhs : hostStep reg yamlF ps pt blocks = (runM st' pt blocks).1 := by
        rw [hostStep, htm]
        simp
      rw [hhs, hrun]
      refine ⟨hcp', rfl, ?_⟩
      cases he : (split_end (if blk ≠ [] then blk :: blocks.drop 1 else blocks.drop 1)
          d.length).2.2 with
      | true =>
        refine Or.inl ?_
        simp only [he, if_true]
        exact hstk
      | false =>
        refine Or.inr (Or.inr ⟨rfl, d, ?_⟩)
        simp only [he, Bool.false_eq_true, if_false]
        rw [hstk]

/-- One step of the whole system.  `host` is one invocation of the engine by
the host's block parser (`test`, then `run` when claimed) at a node `pt` of
the current tree; the tree may grow during the invocation (content dispatch,
`on_create`, the loose-list fix-up), and when the invocation opened a
directive (the stack grew) the directive's `on_create` has placed its root
element under the queried parent, which therefore has a child afterwards.
`passive` is any other processor's action: the tree may grow, the engine
state is untouched. -/
inductive Step (reg : List DirectiveKind) (yamlF : List Char → Except Unit YamlValue) :
    Element × PState → Element × PState → Prop where
  | host : ∀ t t' ps pid pt blocks,
      findNode t pid = some pt →
      Grow t t' →
      ((hostStep reg yamlF ps pt blocks).stack.length > ps.stack.length →
        ∃ u, findNode t' pid = some u ∧ u.children ≠ []) →
      Step reg yamlF (t, ps) (t', hostStep reg yamlF ps pt blocks)
  | passive : ∀ t t' ps, Grow t t' → Step reg yamlF (t, ps) (t', ps)

theorem step_preserves_inv (reg : List DirectiveKind)
    (yamlF : List Char → Except Unit YamlValue)
    (s s' : Element × PState) (hstep : Step reg yamlF s s')
    (hinv : EngineInv s.1 s.2) : EngineInv s'.1 s'.2 := by
  obtain ⟨hu, hp, hcp, hcd⟩ := hinv
  cases hstep with
  | passive t t' ps hg =>
    exact ⟨hu, ParentsTruthy_grow hg hp, hcp, hcd⟩
  | host t t' ps pid pt blocks hfind hg hopen =>
    obtain ⟨hcp', hcd', hstk⟩ :=
      hostStep_characterization reg yamlF ps pt blocks hcp hcd
    rcases hstk with hstk | ⟨r, hstk⟩ | ⟨hsrch, d, hstk⟩
    · refine ⟨?_, ?_, hcp', hcd'⟩
      · rw [hstk]; exact hu
      · rw [hstk]; exact ParentsTruthy_grow hg hp
    · refine ⟨?_, ?_, hcp', hcd'⟩
      · rw [hstk]
        exact HungryUniq_of_sublist (List.eraseIdx_sublist ps.stack r) hu
      · rw [hstk]
        exact ParentsTruthy_grow hg
          (ParentsTruthy_of_sublist (List.eraseIdx_sublist ps.stack r) hp)
    · have hpteid : pt.eid = pid := findNode_eid t pid pt hfind
      have hfresh : ∀ en ∈ ps.stack, ¬(en.hungry = true ∧ en.parentId = pt.eid) := by
        cases htru : truthy pt with
        | true =>
          exact hungryAt_false_no_entry ps.stack pt.eid
            (searchChain_none_not_hungryAt ps.stack pt hsrch htru)
        | false =>
          intro en hen ⟨hh, hpe⟩
          obtain ⟨u, hun, huc⟩ := hp en hen hh
          rw [hpe, hpteid, hfind] at hun
          cases hun
          exact huc (by simpa [truthy, List.isEmpty_iff] using htru)
      have hgrew : (hostStep reg yamlF ps pt blocks).stack.length > ps.stack.length := by
        rw [hstk]; simp
      obtain ⟨u, hu', huc⟩ := hopen hgrew
      refine ⟨?_, ?_, hcp', hcd'⟩
      · rw [hstk]
        exact HungryUniq_append_fresh ps.stack d pt.eid hu hfresh
      · rw [hstk, hpteid]
        exact ParentsTruthy_append d pid u
          (ParentsTruthy_grow hg hp) hu' huc

/-- C5: along every sequence of host invocations of `test`/`run` from a
quiescent state satisfying the engine invariant (in particular from the
freshly reset engine, whose stack is empty), every reached quiescent state
has, for each tree node, at most one stack entry that is simultaneously
hungry and records that node as its parent. -/
theorem claim5_hungry_uniqueness (reg : List DirectiveKind)
    (yamlF : List Char → Except Unit YamlValue)
    (s0 s : Element × PState)
    (h0 : EngineInv s0.1 s0.2)
    (hr : Relation.ReflTransGen (Step reg yamlF) s0 s) :
    HungryUniq s.2.stack := by
  suffices h : EngineInv s.1 s.2 from h.1
  induction hr with
  | refl => exact h0
  | tail hsteps hstep ih => exact step_preserves_inv reg yamlF _ _ hstep ih

theorem claim5_witness :
    HungryUniq
      (hostStep [{ name := "note".toList, parseConfig := fun _ _ => true, onInit := id }]
        (fun _ => Except.error ())
        { stack := [], working := none, trackers := [("note".toList, [])],
          cachedParent := none, cachedDirective := none }
        (Element.node 0 [Element.node 1 []])
        ["::: {note} arg\nbody".toList]).stack :=
  claim5_hungry_uniqueness
    [{ name := "note".toList, parseConfig := fun _ _ => true, onInit := id }]
    (fun _ => Except.error ())
    (Element.node 0 [Element.node 1 []],
     { stack := [], working := none, trackers := [("note".toList, [])],
       cachedParent := none, cachedDirective := none })
    (Element.node 0 [Element.node 1 []],
     hostStep [{ name := "note".toList, parseConfig := fun _ _ => true, onInit := id }]
       (fun _ => Except.error ())
       { stack := [], working := none, trackers := [("note".toList, [])],
         cachedParent := none, cachedDirective := none }
       (Element.node 0 [Element.node 1 []])
       ["::: {note} arg\nbody".toList])
    ⟨fun p => by simp [HungryUniq, List.filter],
     fun en hen _ => absurd hen (List.not_mem_nil en), rfl, rfl⟩
    (Relation.ReflTransGen.single
      (Step.host _ _ _ 0 (Element.node 0 [Element.node 1 []])
        ["::: {note} arg\nbody".toList] rfl (Grow.refl _)
        (fun _ => ⟨Element.node 0 [Element.node 1 []], rfl, List.cons_ne_nil _ _⟩)))

end Directives
